import Mathlib

/-!
# Verification of the frame-deduplication filter and batch-analysis pipeline

Shallow embedding of the core of the `hackthecoast` repository:

* `src/next/lib/phash.ts` — perceptual hasher (`computeHash`, `hammingDistance`);
* the check-image route (`POST` / `DELETE`) — admission filter over the stored
  reference hash `lastHash`;
* `src/next/app/api/analyze-grid/route.ts` and the two analyzer modules
  (`analyzeGrid`, `analyzeFrames`) — score computation and failure handling;
* the continuous capture component (`processAnalysisQueue`,
  `queueGridForAnalysis`, `runCaptureSession`) — bounded job queue with a
  single-active-worker flag, modelled as a transition system;
* the bounded (single-batch) capture session of the other capture component.

Modelling conventions:

* JavaScript numbers are modelled as exact rationals (`ℚ`); `Math.round x` is
  modelled as `⌊x + 1/2⌋`, which matches JS round-half-up-towards-+∞ semantics.
* `Math.cos (k * π / 64)` inside the DCT is modelled by an abstract coefficient
  function `c k`; the hash-construction claims are proved for every such `c`.
* Fallible code (missing form field, `computeHash` throwing, the analyzer call
  rejecting, `JSON.parse` throwing) is modelled with `Option` / `Except`.
-/

/-- JS `Math.round`: round half up, towards `+∞` (`Math.round x = ⌊x + 0.5⌋`). -/
def jsRound (q : ℚ) : ℤ := ⌊q + 1/2⌋

/-! ## Perceptual hasher (`src/next/lib/phash.ts`) -/

/-- Constant `size` in `computeHash`: the image is resized to 32×32. -/
def hashSize : ℕ := 32

/-- Constant `dctSize` in `computeHash`: only the top-left 8×8 DCT block is kept. -/
def dctSize : ℕ := 8

/-- One DCT coefficient: `sum over x, y of pixels[x*size+y] * c((2x+1)u) * c((2y+1)v)`,
where `c k` models `Math.cos (k * π / (2 * size))`.  The pixel array of the
resized 32×32 greyscale image is modelled as the total function `px` (the code
only reads indices `x * 32 + y` with `x y < 32`). -/
def dctCoef (c : ℕ → ℚ) (px : ℕ → ℚ) (u v : ℕ) : ℚ :=
  ∑ x ∈ Finset.range hashSize, ∑ y ∈ Finset.range hashSize,
    px (x * hashSize + y) * c ((2 * x + 1) * u) * c ((2 * y + 1) * v)

/-- Function `dctValues`: the 64 coefficients pushed in row-major `(u, v)` order
(outer loop `u`, inner loop `v`). -/
def dctValues (c : ℕ → ℚ) (px : ℕ → ℚ) : List ℚ :=
  ((List.range dctSize).map (fun u =>
    (List.range dctSize).map (fun v => dctCoef c px u v))).flatten

/-- The median computation of `computeHash`: sort ascending, take the middle
element for odd length, else the mean of the two middle elements.  Out-of-range
indexing (never hit on the 63-element input) defaults to `0`. -/
def jsMedian (l : List ℚ) : ℚ :=
  let sorted := l.insertionSort (· ≤ ·)
  let mid := sorted.length / 2
  if sorted.length % 2 ≠ 0 then sorted.getD mid 0
  else (sorted.getD (mid - 1) 0 + sorted.getD mid 0) / 2

/-- Function `computeHash`: DCT, median of the coefficients excluding the DC term
(`dctValues.slice(1)`), then one `'1'`/`'0'` character per coefficient
(`val >= median`), joined into a string. -/
def computeHash (c : ℕ → ℚ) (px : ℕ → ℚ) : String :=
  let dv := dctValues c px
  let m := jsMedian (dv.drop 1)
  String.join (dv.map (fun val => if val ≥ m then "1" else "0"))

/-- Function `hammingDistance`: count of positions where the two hash strings differ;
throws (`none`) when the lengths differ.  Hash strings are modelled as their
character lists. -/
def hammingDistance (hash1 hash2 : List Char) : Option ℕ :=
  if hash1.length ≠ hash2.length then none
  else some ((hash1.zip hash2).countP (fun p => p.1 ≠ p.2))

/-! ## Check-image route (admission filter) -/

/-- Constant `SIMILARITY_THRESHOLD` of the check-image route. -/
def SIMILARITY_THRESHOLD : ℕ := 20

/-- The JSON body of a successful check-image response. -/
structure CheckResponse where
  shouldProcess : Bool
  distance : Option ℕ
  message : String
deriving DecidableEq

/-- Outcome of the check-image `POST` handler: a 200 JSON response, or an
error response with the given HTTP status (400 for a missing file, 500 for the
`catch` branch). -/
inductive PostResult
  | ok (resp : CheckResponse)
  | error (status : ℕ)
deriving DecidableEq

/-- Whether the handler produced an error response. -/
def PostResult.isError : PostResult → Bool
  | .error _ => true
  | .ok _ => false

/-- The check-image `POST` handler.  `lastHash` is the module-level reference
fingerprint; `file` is `none` when no `image` field is in the form data, and
otherwise carries the outcome of `computeHash` on the uploaded bytes
(`Except.error` when `computeHash` throws on a corrupt image).  Returns the
response together with the new value of `lastHash`. -/
def checkImagePOST (lastHash : Option (List Char))
    (file : Option (Except String (List Char))) :
    PostResult × Option (List Char) :=
  match file with
  | none => (.error 400, lastHash)
  | some (.error _) => (.error 500, lastHash)
  | some (.ok currentHash) =>
    match lastHash with
    | none => (.ok ⟨true, none, "First image — accepted"⟩, some currentHash)
    | some ref =>
      match hammingDistance ref currentHash with
      | none => (.error 500, some ref)
      | some distance =>
        let shouldProcess : Bool := distance ≥ SIMILARITY_THRESHOLD
        (.ok ⟨shouldProcess, some distance,
            if shouldProcess then "Accepted (distance: " ++ toString distance ++ ")"
            else "Too similar (distance: " ++ toString distance ++ ")"⟩,
         if shouldProcess then some currentHash else some ref)

/-- The check-image `DELETE` handler: clears the stored reference hash. -/
def checkImageDELETE (_lastHash : Option (List Char)) : Option (List Char) := none

/-! ## Score formulas (`analyzeGrid` / `analyzeFrames`) -/

/-- The fixed reference constant `12.85` of both analyzer paths. -/
def referenceDailyAverage : ℚ := 1285 / 100

/-- Formula for `scoreChange` of the grid-image analyzer path:
`Math.round((totalCO2Kg / 12.85) * 10000) / 100`. -/
def scoreChangeGrid (totalCO2Kg : ℚ) : ℚ :=
  (jsRound (totalCO2Kg / referenceDailyAverage * 10000) : ℚ) / 100

/-- Formula for `scoreChange` of the per-frame analyzer path:
`Math.round(((totalCO2Kg / 12.85) * 100) * 100) / 100`. -/
def scoreChangeFrames (totalCO2Kg : ℚ) : ℚ :=
  (jsRound (totalCO2Kg / referenceDailyAverage * 100 * 100) : ℚ) / 100

/-- The spec's formula: `(totalCO2Kg / 12.85) * 100`, rounded to two decimal
places. -/
def scoreChangeSpec (totalCO2Kg : ℚ) : ℚ :=
  (jsRound ((totalCO2Kg / referenceDailyAverage * 100) * 100) : ℚ) / 100

/-! ## Analyzer result handling and the analyze-grid route -/

/-- The shape `JSON.parse` must produce in `analyzeGrid`
(`{ summary, activities, totalCO2Kg }`; activities are irrelevant here). -/
structure ParsedResult where
  summary : String
  totalCO2Kg : ℚ
deriving DecidableEq

/-- Outcome of the Gemini call inside `analyzeGrid`: the promise rejects with
an error message, or resolves with a response text. -/
inductive AnalyzerCall
  | reject (e : String)
  | respond (text : String)

/-- The tail of `analyzeGrid` (imageAnalysis module, grid path): `JSON.parse`
of the fence-stripped text is modelled by the abstract `parse`; on a parse
exception the code substitutes `{ summary: "Parse failed: …", activities: [],
totalCO2Kg: 0 }` and continues.  Returns the parsed payload and `scoreChange`. -/
def analyzeGridResult (parse : String → Option ParsedResult) (text : String) :
    ParsedResult × ℚ :=
  let parsed := (parse text).getD ⟨"Parse failed: " ++ (text.take 100), 0⟩
  (parsed, scoreChangeGrid parsed.totalCO2Kg)

/-- Function `analyzeGrid` as seen by its caller: a rejected Gemini call propagates as
an exception; a response (parseable or not) yields a result. -/
def analyzeGridCall (parse : String → Option ParsedResult) (call : AnalyzerCall) :
    Except String (ParsedResult × ℚ) :=
  match call with
  | .reject e => .error e
  | .respond text => .ok (analyzeGridResult parse text)

/-- The analyze-grid route `POST` handler, reduced to its effect on today's
stored logs (each log contributes its `scoreChange`): on success one log with
the computed `scoreChange` is inserted; on failure a 500 response with message
`"Analysis failed: " ++ e` is returned and nothing is inserted. -/
def analyzeGridPOST (parse : String → Option ParsedResult) (call : AnalyzerCall)
    (logs : List ℚ) : Except String (List ℚ) :=
  match analyzeGridCall parse call with
  | .error e => .error ("Analysis failed: " ++ e)
  | .ok (_, scoreChange) => .ok (logs ++ [scoreChange])

/-- The `cumulativeScore` reported by the route's `GET` handler:
`Math.round(sum * 100) / 100` over today's logs. -/
def cumulativeScore (logs : List ℚ) : ℚ := (jsRound (logs.sum * 100) : ℚ) / 100

/-! ## The analysis queue (`processAnalysisQueue` / `queueGridForAnalysis`) -/

/-- Constant `MAX_FRAMES` — frames per grid. -/
def MAX_FRAMES : ℕ := 12

/-- Constant `MAX_PENDING_JOBS` — queue capacity for pending-or-analyzing jobs. -/
def MAX_PENDING_JOBS : ℕ := 3

/-- The `status` field of a `GridJob`; `failed` carries the attached error
message. -/
inductive JStatus
  | pending
  | analyzing
  | complete
  | failed (err : String)
deriving DecidableEq

/-- Whether a status counts towards `pending ∪ analyzing`
(`j.status === "pending" || j.status === "analyzing"`). -/
def JStatus.isActiveStatus : JStatus → Bool
  | .pending => true
  | .analyzing => true
  | _ => false

/-- A `GridJob`: its id, the captured frames (abstracted to their payload
ids), and its status.  `startTime` / `endTime` / `result` are dropped as
irrelevant to the claims. -/
structure Job where
  id : ℕ
  frames : List ℕ
  status : JStatus
deriving DecidableEq

/-- Models `j.status === "pending"`. -/
def Job.isPending (j : Job) : Bool := j.status = .pending

/-- Models `j.status === "analyzing"`. -/
def Job.isAnalyzing (j : Job) : Bool := j.status = .analyzing

/-- Models `j.status === "pending" || j.status === "analyzing"`. -/
def Job.isActive (j : Job) : Bool := j.status.isActiveStatus

/-- Models `j.status === "complete" || j.status === "failed"`. -/
def Job.isFinished (j : Job) : Bool :=
  match j.status with
  | .complete => true
  | .failed _ => true
  | _ => false

/-- State of the analysis queue component: `analysisQueueRef.current`,
`processingRef.current` and `jobIdCounterRef.current`.  `retiredLog` is a
ghost history variable recording, in order, the id of each job at the moment
it reaches a terminal status. -/
structure QState where
  jobs : List Job
  processing : Bool
  counter : ℕ
  retiredLog : List ℕ
deriving DecidableEq

/-- The initial state: empty queue, no worker, counter 0. -/
def qInit : QState := ⟨[], false, 0, []⟩

/-- The `pendingCount` read by `queueGridForAnalysis` and the capture loop:
number of jobs whose status is `pending` or `analyzing`. -/
def activeCount (s : QState) : ℕ := (s.jobs.filter Job.isActive).length

/-- Number of jobs in `analyzing` status. -/
def analyzingCount (s : QState) : ℕ := (s.jobs.filter Job.isAnalyzing).length

/-- Function `queueGridForAnalysis`: reject (returning `false`, queue untouched) when
`pendingCount >= MAX_PENDING_JOBS`; otherwise increment the id counter and
push a new `pending` job carrying a copy of the frames, returning `true`.
(The synchronous `processAnalysisQueue()` kick that follows is a separate
`drainStart` step of the transition system.) -/
def queueGridForAnalysis (s : QState) (frames : List ℕ) : Bool × QState :=
  if activeCount s ≥ MAX_PENDING_JOBS then (false, s)
  else (true,
    { s with counter := s.counter + 1,
             jobs := s.jobs ++ [⟨s.counter + 1, frames, .pending⟩] })

/-- Models `analysisQueueRef.current.find(j => j.status === "pending")`. -/
def firstPending (jobs : List Job) : Option Job := jobs.find? Job.isPending

/-- Mark the first `pending` job of the list as `analyzing`; `none` when no
pending job exists. -/
def markFirstPending : List Job → Option (List Job)
  | [] => none
  | j :: rest =>
    if j.isPending then some ({ j with status := .analyzing } :: rest)
    else (markFirstPending rest).map (j :: ·)

/-- The synchronous head of `processAnalysisQueue` (lines up to the first
`await`): no-op if `processingRef.current` is set or no pending job exists;
otherwise set the flag and move the first pending job to `analyzing`. -/
def drainStart (s : QState) : QState :=
  if s.processing then s
  else
    match markFirstPending s.jobs with
    | none => s
    | some jobs' => { s with processing := true, jobs := jobs' }

/-- Set the status of the first `analyzing` job of the list (the worker's
job object), returning its id and the updated list. -/
def finishAnalyzing (st : JStatus) : List Job → Option (ℕ × List Job)
  | [] => none
  | j :: rest =>
    if j.isAnalyzing then some (j.id, { j with status := st } :: rest)
    else (finishAnalyzing st rest).map (fun p => (p.1, j :: p.2))

/-- The pruning step of `processAnalysisQueue`: keep all active jobs followed
by the last 5 finished jobs (`finishedJobs.slice(-5)`). -/
def prune (jobs : List Job) : List Job :=
  jobs.filter Job.isActive ++
    ((jobs.filter Job.isFinished).drop ((jobs.filter Job.isFinished).length - 5))

/-- The synchronous tail of `processAnalysisQueue` after the awaited analysis
settles: the worker's job becomes `complete` or `failed st`, the flag is
cleared, and the queue is pruned.  A no-op when no worker is active. -/
def drainFinish (s : QState) (st : JStatus) : QState :=
  if s.processing then
    match finishAnalyzing st s.jobs with
    | some (i, jobs') =>
      { s with processing := false, jobs := prune jobs',
               retiredLog := s.retiredLog ++ [i] }
    | none => { s with processing := false }
  else s

/-- Reachable states of the queue under an arbitrary interleaving of
`queueGridForAnalysis` calls, drain invocations, and completions of the
awaited analysis (successful or failed). -/
inductive QReach : QState → Prop
  | init : QReach qInit
  | enq (s : QState) (frames : List ℕ) (h : QReach s) :
      QReach (queueGridForAnalysis s frames).2
  | drain (s : QState) (h : QReach s) : QReach (drainStart s)
  | finOk (s : QState) (h : QReach s) : QReach (drainFinish s .complete)
  | finFail (s : QState) (e : String) (h : QReach s) :
      QReach (drainFinish s (.failed e))

/-! ### Elementary facts about job statuses -/

lemma Job.isActive_eq (j : Job) : j.isActive = (j.isPending || j.isAnalyzing) := by
  rcases j with ⟨i, fr, st⟩
  cases st <;> rfl

lemma Job.active_of_pending {j : Job} (h : j.isPending = true) : j.isActive = true := by
  rw [Job.isActive_eq, h]; rfl

lemma Job.active_of_analyzing {j : Job} (h : j.isAnalyzing = true) : j.isActive = true := by
  rw [Job.isActive_eq, h]; simp

lemma Job.not_analyzing_of_pending {j : Job} (h : j.isPending = true) :
    j.isAnalyzing = false := by
  rcases j with ⟨i, fr, st⟩
  cases st <;> simp_all [Job.isPending, Job.isAnalyzing]

/-! ### Decomposition lemmas for the queue step functions -/

lemma markFirstPending_eq_none {l : List Job} :
    markFirstPending l = none ↔ ∀ j ∈ l, j.isPending = false := by
  induction l with
  | nil => simp [markFirstPending]
  | cons j rest ih =>
    by_cases hp : j.isPending = true
    · simp [markFirstPending, hp]
    · simp only [Bool.not_eq_true] at hp
      simp [markFirstPending, hp, ih]

lemma markFirstPending_eq_some {l l' : List Job}
    (h : markFirstPending l = some l') :
    ∃ l₁ j l₂, l = l₁ ++ j :: l₂ ∧ (∀ k ∈ l₁, k.isPending = false) ∧
      j.isPending = true ∧ l' = l₁ ++ { j with status := .analyzing } :: l₂ := by
  induction l generalizing l' with
  | nil => simp [markFirstPending] at h
  | cons j rest ih =>
    by_cases hp : j.isPending = true
    · refine ⟨[], j, rest, by simp, by simp, hp, ?_⟩
      simp [markFirstPending, hp] at h
      simpa using h.symm
    · simp only [Bool.not_eq_true] at hp
      rw [markFirstPending, if_neg (by simp [hp])] at h
      cases hrest : markFirstPending rest with
      | none => rw [hrest] at h; simp at h
      | some rest' =>
        rw [hrest] at h
        simp only [Option.map_some', Option.some_inj] at h
        obtain ⟨l₁, ja, l₂, hdec, hnp, hja, hres⟩ := ih hrest
        refine ⟨j :: l₁, ja, l₂, by simp [hdec], ?_, hja, by simp [← h, hres]⟩
        intro k hk
        rcases List.mem_cons.1 hk with rfl | hk
        · exact hp
        · exact hnp k hk

lemma finishAnalyzing_eq_none {st : JStatus} {l : List Job} :
    finishAnalyzing st l = none ↔ ∀ j ∈ l, j.isAnalyzing = false := by
  induction l with
  | nil => simp [finishAnalyzing]
  | cons j rest ih =>
    by_cases hp : j.isAnalyzing = true
    · simp [finishAnalyzing, hp]
    · simp only [Bool.not_eq_true] at hp
      simp [finishAnalyzing, hp, ih]

lemma finishAnalyzing_eq_some {st : JStatus} {l : List Job} {i : ℕ} {l' : List Job}
    (h : finishAnalyzing st l = some (i, l')) :
    ∃ l₁ j l₂, l = l₁ ++ j :: l₂ ∧ (∀ k ∈ l₁, k.isAnalyzing = false) ∧
      j.isAnalyzing = true ∧ i = j.id ∧ l' = l₁ ++ { j with status := st } :: l₂ := by
  induction l generalizing i l' with
  | nil => simp [finishAnalyzing] at h
  | cons j rest ih =>
    by_cases hp : j.isAnalyzing = true
    · simp only [finishAnalyzing, hp, if_true, Option.some_inj, Prod.mk.injEq] at h
      exact ⟨[], j, rest, by simp, by simp, hp, h.1.symm, by simp [h.2]⟩
    · simp only [Bool.not_eq_true] at hp
      rw [finishAnalyzing, if_neg (by simp [hp])] at h
      cases hrest : finishAnalyzing st rest with
      | none => rw [hrest] at h; simp at h
      | some pr =>
        rw [hrest] at h
        simp only [Option.map_some', Option.some_inj, Prod.mk.injEq] at h
        obtain ⟨hi, hl⟩ := h
        obtain ⟨l₁, ja, l₂, hdec, hna, hja, hid, hres⟩ := ih (by rw [hrest])
        refine ⟨j :: l₁, ja, l₂, by simp [hdec], ?_, hja, by simp [← hi, hid],
          by simp [← hl, hres]⟩
        intro k hk
        rcases List.mem_cons.1 hk with rfl | hk
        · exact hp
        · exact hna k hk

/-! ### Pruning preserves the active jobs -/

lemma Job.isFinished_eq_not_isActive (j : Job) : j.isFinished = !j.isActive := by
  rcases j with ⟨i, fr, st⟩
  cases st <;> rfl

lemma prune_filter_isActive (l : List Job) :
    (prune l).filter Job.isActive = l.filter Job.isActive := by
  unfold prune
  rw [List.filter_append, List.filter_filter]
  have h1 : (l.filter fun a => Job.isActive a && Job.isActive a) = l.filter Job.isActive := by
    apply List.filter_congr
    intro a _
    exact Bool.and_self _
  have h2 : ((l.filter Job.isFinished).drop
      ((l.filter Job.isFinished).length - 5)).filter Job.isActive = [] := by
    rw [List.filter_eq_nil_iff]
    intro a ha
    have : a ∈ l.filter Job.isFinished := List.drop_subset _ _ ha
    have hfin : a.isFinished = true := (List.mem_filter.1 this).2
    rw [Job.isFinished_eq_not_isActive] at hfin
    simp only [Bool.not_eq_true'] at hfin
    simp [hfin]
  rw [h1, h2, List.append_nil]

lemma prune_subset {j : Job} {l : List Job} (h : j ∈ prune l) : j ∈ l := by
  unfold prune at h
  rcases List.mem_append.1 h with h' | h'
  · exact List.mem_of_mem_filter h'
  · exact List.mem_of_mem_filter (List.drop_subset _ _ h')

/-! ### The queue invariant -/

/-- Inductive invariant of the analysis queue:
* shape of the active (pending-or-analyzing) sublist: while a worker is active
  its job heads the active sublist and everything behind it is pending; while
  no worker is active every active job is pending;
* the capacity bound;
* active jobs are ordered by strictly increasing id (enqueue order);
* all ids are bounded by the counter;
* retired ids (ghost log) precede every active id and are strictly sorted. -/
structure QInv (s : QState) : Prop where
  shapeBusy : s.processing = true →
      ∃ j tl, s.jobs.filter Job.isActive = j :: tl ∧ j.isAnalyzing = true ∧
        ∀ k ∈ tl, k.isPending = true
  shapeIdle : s.processing = false →
      ∀ k ∈ s.jobs.filter Job.isActive, k.isPending = true
  cap : activeCount s ≤ MAX_PENDING_JOBS
  sortedActive : (s.jobs.filter Job.isActive).Pairwise (fun a b => a.id < b.id)
  idsLe : ∀ j ∈ s.jobs, j.id ≤ s.counter
  logLe : ∀ i ∈ s.retiredLog, i ≤ s.counter
  logLtActive : ∀ i ∈ s.retiredLog, ∀ j ∈ s.jobs, j.isActive = true → i < j.id
  logSorted : s.retiredLog.Pairwise (· < ·)

lemma qInv_init : QInv qInit := by
  constructor <;> simp [qInit, activeCount]

lemma qInv_enq {s : QState} (frames : List ℕ) (h : QInv s) :
    QInv (queueGridForAnalysis s frames).2 := by
  unfold queueGridForAnalysis
  by_cases hful : activeCount s ≥ MAX_PENDING_JOBS
  · simpa [hful] using h
  · simp only [hful, if_false]
    set jn : Job := ⟨s.counter + 1, frames, .pending⟩ with hjn
    have hjnp : jn.isPending = true := rfl
    have hjna : jn.isActive = true := rfl
    have hjnid : jn.id = s.counter + 1 := rfl
    have hfil : (s.jobs ++ [jn]).filter Job.isActive =
        s.jobs.filter Job.isActive ++ [jn] := by
      rw [List.filter_append]
      simp [hjna]
    have hlt : ∀ a ∈ s.jobs.filter Job.isActive, a.id < jn.id := by
      intro a ha
      have := h.idsLe a (List.mem_of_mem_filter ha)
      rw [hjnid]
      omega
    constructor
    · intro hp
      obtain ⟨j, tl, heq, hja, htl⟩ := h.shapeBusy hp
      refine ⟨j, tl ++ [jn], ?_, hja, ?_⟩
      · show (s.jobs ++ [jn]).filter Job.isActive = _
        rw [hfil, heq, List.cons_append]
      · intro k hk
        rcases List.mem_append.1 hk with hk | hk
        · exact htl k hk
        · rw [List.mem_singleton.1 hk]; exact hjnp
    · intro hp k hk
      rw [show ({ s with counter := s.counter + 1, jobs := s.jobs ++ [jn] } :
            QState).jobs = s.jobs ++ [jn] from rfl, hfil] at hk
      rcases List.mem_append.1 hk with hk | hk
      · exact h.shapeIdle hp k hk
      · rw [List.mem_singleton.1 hk]; exact hjnp
    · show ((s.jobs ++ [jn]).filter Job.isActive).length ≤ MAX_PENDING_JOBS
      rw [hfil, List.length_append]
      have : activeCount s < MAX_PENDING_JOBS := Nat.lt_of_not_le hful
      simpa [activeCount] using this
    · show ((s.jobs ++ [jn]).filter Job.isActive).Pairwise _
      rw [hfil, List.pairwise_append]
      exact ⟨h.sortedActive, List.pairwise_singleton _ _, fun a ha b hb =>
        (List.mem_singleton.1 hb) ▸ hlt a ha⟩
    · intro j hj
      rcases List.mem_append.1 hj with hj | hj
      · exact Nat.le_succ_of_le (h.idsLe j hj)
      · rw [List.mem_singleton.1 hj]
    · intro i hi
      exact Nat.le_succ_of_le (h.logLe i hi)
    · intro i hi j hj hja
      rcases List.mem_append.1 hj with hj | hj
      · exact h.logLtActive i hi j hj hja
      · rw [List.mem_singleton.1 hj, hjnid]
        have := h.logLe i hi
        omega
    · exact h.logSorted

lemma qInv_drain {s : QState} (h : QInv s) : QInv (drainStart s) := by
  unfold drainStart
  by_cases hp : s.processing = true
  · simpa [hp] using h
  · replace hp : s.processing = false := by simpa using hp
    rw [hp]
    cases hmk : markFirstPending s.jobs with
    | none => simpa using h
    | some jobs' =>
      simp only [Bool.false_eq_true, if_false]
      obtain ⟨l₁, j, l₂, hdec, hnp, hjp, hres⟩ := markFirstPending_eq_some hmk
      set ja : Job := { j with status := .analyzing } with hja
      have hjaa : ja.isAnalyzing = true := rfl
      have hjaact : ja.isActive = true := rfl
      have hjact : j.isActive = true := Job.active_of_pending hjp
      have hl₁ : l₁.filter Job.isActive = [] := by
        rw [List.filter_eq_nil_iff]
        intro k hk hka
        have hkin : k ∈ s.jobs.filter Job.isActive :=
          List.mem_filter.2 ⟨hdec ▸ List.mem_append.2 (Or.inl hk), hka⟩
        have := h.shapeIdle hp k hkin
        rw [hnp k hk] at this
        exact Bool.false_ne_true this
      have hfil : s.jobs.filter Job.isActive = j :: l₂.filter Job.isActive := by
        rw [hdec, List.filter_append, hl₁, List.nil_append, List.filter_cons_of_pos hjact]
      have hfil2 : jobs'.filter Job.isActive = ja :: l₂.filter Job.isActive := by
        rw [hres, List.filter_append, hl₁, List.nil_append,
          List.filter_cons_of_pos hjaact]
      have hjin : j ∈ s.jobs := hdec ▸ List.mem_append.2 (Or.inr (List.mem_cons_self j l₂))
      refine ⟨?_, ?_, ?_, ?_, ?_, ?_, ?_, ?_⟩
      · intro _
        refine ⟨ja, l₂.filter Job.isActive, hfil2, hjaa, ?_⟩
        intro k hk
        exact h.shapeIdle hp k (hfil ▸ List.mem_cons_of_mem j hk)
      · intro hcontra
        simp at hcontra
      · show (jobs'.filter Job.isActive).length ≤ MAX_PENDING_JOBS
        rw [hfil2]
        have := h.cap
        rw [show activeCount s = (s.jobs.filter Job.isActive).length from rfl, hfil] at this
        simpa using this
      · show (jobs'.filter Job.isActive).Pairwise _
        rw [hfil2]
        have hpw := h.sortedActive
        rw [hfil] at hpw
        rw [List.pairwise_cons] at hpw ⊢
        exact ⟨fun b hb => hpw.1 b hb, hpw.2⟩
      · intro k hk
        rw [show ({ s with processing := true, jobs := jobs' } : QState).jobs = jobs'
          from rfl, hres] at hk
        rcases List.mem_append.1 hk with hk | hk
        · exact h.idsLe k (hdec ▸ List.mem_append.2 (Or.inl hk))
        · rcases List.mem_cons.1 hk with rfl | hk
          · exact h.idsLe j hjin
          · exact h.idsLe k (hdec ▸ List.mem_append.2 (Or.inr (List.mem_cons_of_mem j hk)))
      · intro i hi
        exact h.logLe i hi
      · intro i hi k hk hka
        rw [show ({ s with processing := true, jobs := jobs' } : QState).jobs = jobs'
          from rfl, hres] at hk
        rcases List.mem_append.1 hk with hk | hk
        · exact h.logLtActive i hi k (hdec ▸ List.mem_append.2 (Or.inl hk)) hka
        · rcases List.mem_cons.1 hk with rfl | hk
          · exact h.logLtActive i hi j hjin hjact
          · exact h.logLtActive i hi k
              (hdec ▸ List.mem_append.2 (Or.inr (List.mem_cons_of_mem j hk))) hka
      · exact h.logSorted

lemma qInv_fin {s : QState} {st : JStatus} (hst : st.isActiveStatus = false)
    (h : QInv s) : QInv (drainFinish s st) := by
  unfold drainFinish
  by_cases hp : s.processing = true
  case neg =>
    replace hp : s.processing = false := by simpa using hp
    rw [hp]
    simpa using h
  case pos =>
    rw [hp]
    simp only [if_true]
    obtain ⟨j0, tl, heq, hj0a, htl⟩ := h.shapeBusy hp
    have hj0mem : j0 ∈ s.jobs.filter Job.isActive := heq ▸ List.mem_cons_self _ _
    cases hfin : finishAnalyzing st s.jobs with
    | none =>
      exfalso
      have := finishAnalyzing_eq_none.1 hfin j0 (List.mem_of_mem_filter hj0mem)
      rw [hj0a] at this
      simp at this
    | some pr =>
      obtain ⟨i, jobs'⟩ := pr
      show QInv ⟨prune jobs', false, s.counter, s.retiredLog ++ [i]⟩
      obtain ⟨l₁, j, l₂, hdec, hna, hja, hid, hres⟩ := finishAnalyzing_eq_some hfin
      have hjact : j.isActive = true := Job.active_of_analyzing hja
      have hjmem : j ∈ s.jobs := hdec ▸ List.mem_append.2 (Or.inr (List.mem_cons_self j l₂))
      have hl₁ : l₁.filter Job.isActive = [] := by
        cases hfl : l₁.filter Job.isActive with
        | nil => rfl
        | cons k ks =>
          exfalso
          have hsplit : s.jobs.filter Job.isActive =
              k :: (ks ++ j :: l₂.filter Job.isActive) := by
            rw [hdec, List.filter_append, hfl, List.filter_cons_of_pos hjact,
              List.cons_append]
          rw [heq] at hsplit
          have hk0 : j0 = k := (List.cons.injEq .. ▸ hsplit).1
          have hkmem : k ∈ l₁ := List.mem_of_mem_filter (hfl ▸ List.mem_cons_self k ks)
          have := hna k hkmem
          rw [← hk0, hj0a] at this
          simp at this
      have hfilS : s.jobs.filter Job.isActive = j :: l₂.filter Job.isActive := by
        rw [hdec, List.filter_append, hl₁, List.nil_append, List.filter_cons_of_pos hjact]
      have hinj : j0 = j ∧ tl = l₂.filter Job.isActive := by
        have h2 := heq.symm.trans hfilS
        exact ⟨(List.cons.injEq .. ▸ h2).1, (List.cons.injEq .. ▸ h2).2⟩
      obtain ⟨hj0, htleq⟩ := hinj
      have hjSta : ({ j with status := st } : Job).isActive = false := hst
      have hfilJ : jobs'.filter Job.isActive = l₂.filter Job.isActive := by
        rw [hres, List.filter_append, hl₁, List.nil_append,
          List.filter_cons_of_neg (by simp [hjSta])]
      have hfilP : (prune jobs').filter Job.isActive = l₂.filter Job.isActive := by
        rw [prune_filter_isActive, hfilJ]
      have hmemP : ∀ k ∈ prune jobs', k.isActive = true → k ∈ l₂.filter Job.isActive := by
        intro k hk hka
        have hkf : k ∈ (prune jobs').filter Job.isActive := List.mem_filter.2 ⟨hk, hka⟩
        rwa [hfilP] at hkf
      have hmemS : ∀ k ∈ l₂.filter Job.isActive, k ∈ s.jobs := by
        intro k hk
        exact hdec ▸ List.mem_append.2 (Or.inr (List.mem_cons_of_mem j
          (List.mem_of_mem_filter hk)))
      have hpw := h.sortedActive
      rw [heq, List.pairwise_cons] at hpw
      refine ⟨?_, ?_, ?_, ?_, ?_, ?_, ?_, ?_⟩
      · intro hc
        simp at hc
      · intro _ k hk
        replace hk : k ∈ (prune jobs').filter Job.isActive := hk
        rw [hfilP, ← htleq] at hk
        exact htl k hk
      · show ((prune jobs').filter Job.isActive).length ≤ MAX_PENDING_JOBS
        rw [hfilP]
        have hc := h.cap
        rw [show activeCount s = (s.jobs.filter Job.isActive).length from rfl,
          hfilS, List.length_cons] at hc
        omega
      · show ((prune jobs').filter Job.isActive).Pairwise _
        rw [hfilP, ← htleq]
        exact hpw.2
      · intro k hk
        replace hk : k ∈ prune jobs' := hk
        have hk2 : k ∈ jobs' := prune_subset hk
        rw [hres] at hk2
        rcases List.mem_append.1 hk2 with hk2 | hk2
        · exact h.idsLe k (hdec ▸ List.mem_append.2 (Or.inl hk2))
        · rcases List.mem_cons.1 hk2 with rfl | hk2
          · exact h.idsLe j hjmem
          · exact h.idsLe k
              (hdec ▸ List.mem_append.2 (Or.inr (List.mem_cons_of_mem j hk2)))
      · intro a ha
        replace ha : a ∈ s.retiredLog ++ [i] := ha
        rcases List.mem_append.1 ha with ha | ha
        · exact h.logLe a ha
        · rw [List.mem_singleton.1 ha, hid]
          exact h.idsLe j hjmem
      · intro a ha k hk hka
        replace ha : a ∈ s.retiredLog ++ [i] := ha
        replace hk : k ∈ prune jobs' := hk
        have hktl : k ∈ l₂.filter Job.isActive := hmemP k hk hka
        rcases List.mem_append.1 ha with ha | ha
        · exact h.logLtActive a ha k (hmemS k hktl) hka
        · rw [List.mem_singleton.1 ha, hid, ← hj0]
          exact hpw.1 k (htleq ▸ hktl)
      · show (s.retiredLog ++ [i]).Pairwise (· < ·)
        rw [List.pairwise_append]
        refine ⟨h.logSorted, List.pairwise_singleton _ _, ?_⟩
        intro a ha b hb
        rw [List.mem_singleton.1 hb, hid, ← hj0]
        exact h.logLtActive a ha j0 (hj0 ▸ hjmem) (hj0 ▸ hjact)

/-- Every reachable queue state satisfies the invariant. -/
theorem qReach_inv {s : QState} (h : QReach s) : QInv s := by
  induction h with
  | init => exact qInv_init
  | enq s frames _ ih => exact qInv_enq frames ih
  | drain s _ ih => exact qInv_drain ih
  | finOk s _ ih => exact qInv_fin rfl ih
  | finFail s e _ ih => exact qInv_fin rfl ih

lemma analyzingCount_le_one {s : QState} (h : QInv s) : analyzingCount s ≤ 1 := by
  have hsub : s.jobs.filter Job.isAnalyzing =
      (s.jobs.filter Job.isActive).filter Job.isAnalyzing := by
    rw [List.filter_filter]
    apply List.filter_congr
    intro a _
    cases hb : a.isAnalyzing
    · simp
    · simp [Job.active_of_analyzing hb]
  by_cases hp : s.processing = true
  · obtain ⟨j, tl, heq, hja, htl⟩ := h.shapeBusy hp
    have : (tl.filter Job.isAnalyzing) = [] := by
      rw [List.filter_eq_nil_iff]
      intro k hk hka
      have := Job.not_analyzing_of_pending (htl k hk)
      rw [hka] at this
      simp at this
    unfold analyzingCount
    rw [hsub, heq, List.filter_cons_of_pos hja, this]
    simp
  · replace hp : s.processing = false := by simpa using hp
    have hall := h.shapeIdle hp
    have : (s.jobs.filter Job.isActive).filter Job.isAnalyzing = [] := by
      rw [List.filter_eq_nil_iff]
      intro k hk hka
      have := Job.not_analyzing_of_pending (hall k hk)
      rw [hka] at this
      simp at this
    unfold analyzingCount
    rw [hsub, this]
    simp

lemma firstPending_min {l : List Job}
    (hpw : (l.filter Job.isActive).Pairwise (fun a b => a.id < b.id)) :
    ∀ jm, l.find? Job.isPending = some jm → ∀ j ∈ l, j.isPending = true → jm.id ≤ j.id := by
  induction l with
  | nil => intro jm h; simp at h
  | cons a rest ih =>
    intro jm hfind j hj hjp
    by_cases ha : a.isPending = true
    · rw [List.find?_cons_of_pos _ ha, Option.some_inj] at hfind
      subst hfind
      rcases List.mem_cons.1 hj with rfl | hj
      · exact Nat.le_refl _
      · have haa : a.isActive = true := Job.active_of_pending ha
        have hfa : (a :: rest).filter Job.isActive = a :: rest.filter Job.isActive :=
          List.filter_cons_of_pos haa
        rw [hfa, List.pairwise_cons] at hpw
        have : j ∈ rest.filter Job.isActive :=
          List.mem_filter.2 ⟨hj, Job.active_of_pending hjp⟩
        exact Nat.le_of_lt (hpw.1 j this)
    · rw [List.find?_cons_of_neg _ ha] at hfind
      have hpw' : (rest.filter Job.isActive).Pairwise (fun a b => a.id < b.id) := by
        by_cases haa : a.isActive = true
        · rw [List.filter_cons_of_pos haa, List.pairwise_cons] at hpw
          exact hpw.2
        · rwa [List.filter_cons_of_neg (by simpa using haa)] at hpw
      rcases List.mem_cons.1 hj with rfl | hj
      · exact absurd hjp ha
      · exact ih hpw' jm hfind j hj hjp

/-! ## Claim theorems for the queue -/

/-- C1: under any interleaving of drain and enqueue calls, at most one job
of the analysis queue is in `analyzing` status at any instant, and any
invocation of the drain operation while a worker is already active
(`processingRef.current` set) is a no-op that changes nothing. -/
theorem claim1_single_active_worker (s : QState) (h : QReach s) :
    analyzingCount s ≤ 1 ∧ (s.processing = true → drainStart s = s) := by
  refine ⟨analyzingCount_le_one (qReach_inv h), ?_⟩
  intro hp
  unfold drainStart
  rw [hp]
  simp

/-- Witness for C1: the theorem applied to a reachable state in which a
worker is active (one job enqueued and drained into `analyzing`). -/
theorem claim1_witness :
    analyzingCount (drainStart (queueGridForAnalysis qInit [5, 6]).2) ≤ 1
    ∧ ((drainStart (queueGridForAnalysis qInit [5, 6]).2).processing = true →
        drainStart (drainStart (queueGridForAnalysis qInit [5, 6]).2) =
          drainStart (queueGridForAnalysis qInit [5, 6]).2) :=
  claim1_single_active_worker (drainStart (queueGridForAnalysis qInit [5, 6]).2)
    (QReach.drain _ (QReach.enq qInit [5, 6] QReach.init))

/-- C2: in every reachable queue state the number of pending-or-analyzing
jobs is at most the capacity 3; `queueGridForAnalysis` returns `false` and
adds nothing when that count is already `≥ 3`, and otherwise appends exactly
one new `pending` job and returns `true`; the bound is preserved by the call. -/
theorem claim2_admission_control (s : QState) (h : QReach s) (frames : List ℕ) :
    activeCount s ≤ MAX_PENDING_JOBS
    ∧ (activeCount s ≥ MAX_PENDING_JOBS → queueGridForAnalysis s frames = (false, s))
    ∧ (activeCount s < MAX_PENDING_JOBS →
        queueGridForAnalysis s frames =
          (true, { s with counter := s.counter + 1, jobs := s.jobs ++ [⟨s.counter + 1, frames, .pending⟩] }))
    ∧ activeCount (queueGridForAnalysis s frames).2 ≤ MAX_PENDING_JOBS := by
  have hinv := qReach_inv h
  refine ⟨hinv.cap, ?_, ?_, (qInv_enq frames hinv).cap⟩
  · intro hge
    unfold queueGridForAnalysis
    rw [if_pos hge]
  · intro hlt
    unfold queueGridForAnalysis
    rw [if_neg (Nat.not_le.2 hlt)]

/-- Witness for C2: the theorem applied to a reachable queue already holding
three pending jobs, so the fourth enqueue is rejected. -/
theorem claim2_witness :
    activeCount (queueGridForAnalysis (queueGridForAnalysis
        (queueGridForAnalysis qInit [1]).2 [2]).2 [3]).2 ≤ MAX_PENDING_JOBS
    ∧ (activeCount (queueGridForAnalysis (queueGridForAnalysis
          (queueGridForAnalysis qInit [1]).2 [2]).2 [3]).2 ≥ MAX_PENDING_JOBS →
        queueGridForAnalysis (queueGridForAnalysis (queueGridForAnalysis
            (queueGridForAnalysis qInit [1]).2 [2]).2 [3]).2 [7, 8] =
          (false, (queueGridForAnalysis (queueGridForAnalysis
            (queueGridForAnalysis qInit [1]).2 [2]).2 [3]).2))
    ∧ (activeCount (queueGridForAnalysis (queueGridForAnalysis
          (queueGridForAnalysis qInit [1]).2 [2]).2 [3]).2 < MAX_PENDING_JOBS →
        queueGridForAnalysis (queueGridForAnalysis (queueGridForAnalysis
            (queueGridForAnalysis qInit [1]).2 [2]).2 [3]).2 [7, 8] =
          (true, { (queueGridForAnalysis (queueGridForAnalysis
              (queueGridForAnalysis qInit [1]).2 [2]).2 [3]).2 with
            counter := (queueGridForAnalysis (queueGridForAnalysis
              (queueGridForAnalysis qInit [1]).2 [2]).2 [3]).2.counter + 1,
            jobs := (queueGridForAnalysis (queueGridForAnalysis
              (queueGridForAnalysis qInit [1]).2 [2]).2 [3]).2.jobs ++
              [⟨(queueGridForAnalysis (queueGridForAnalysis
                (queueGridForAnalysis qInit [1]).2 [2]).2 [3]).2.counter + 1,
                [7, 8], .pending⟩] }))
    ∧ activeCount (queueGridForAnalysis (queueGridForAnalysis (queueGridForAnalysis
        (queueGridForAnalysis qInit [1]).2 [2]).2 [3]).2 [7, 8]).2 ≤
        MAX_PENDING_JOBS :=
  claim2_admission_control (queueGridForAnalysis (queueGridForAnalysis
      (queueGridForAnalysis qInit [1]).2 [2]).2 [3]).2
    (QReach.enq _ [3] (QReach.enq _ [2] (QReach.enq qInit [1] QReach.init))) [7, 8]

lemma find?_append_first {p : Job → Bool} {l₁ l₂ : List Job} {j : Job}
    (hl₁ : ∀ k ∈ l₁, p k = false) (hj : p j = true) :
    (l₁ ++ j :: l₂).find? p = some j := by
  induction l₁ with
  | nil => simp [List.find?_cons_of_pos _ hj]
  | cons a rest ih =>
    rw [List.cons_append,
      List.find?_cons_of_neg _ (by simp [hl₁ a (List.mem_cons_self a rest)])]
    exact ih (fun k hk => hl₁ k (List.mem_cons_of_mem a hk))

lemma no_analyzing_of_idle {s : QState} (h : QInv s) (hp : s.processing = false) :
    ∀ k ∈ s.jobs, k.isAnalyzing = false := by
  intro k hk
  by_contra hka
  replace hka : k.isAnalyzing = true := by simpa using hka
  have hmem : k ∈ s.jobs.filter Job.isActive :=
    List.mem_filter.2 ⟨hk, Job.active_of_analyzing hka⟩
  have h2 := Job.not_analyzing_of_pending (h.shapeIdle hp k hmem)
  rw [hka] at h2
  simp at h2

lemma drainStart_marks_firstPending {s : QState} (h : QInv s)
    (hp : s.processing = false) {jm : Job} (hfp : firstPending s.jobs = some jm) :
    (drainStart s).jobs.filter Job.isAnalyzing = [{ jm with status := .analyzing }] := by
  have hjmP : jm.isPending = true := List.find?_some hfp
  have hjmMem : jm ∈ s.jobs := List.mem_of_find?_eq_some hfp
  cases hmk : markFirstPending s.jobs with
  | none =>
    exfalso
    have := markFirstPending_eq_none.1 hmk jm hjmMem
    rw [hjmP] at this
    simp at this
  | some jobs2 =>
    unfold drainStart
    rw [hp]
    simp only [Bool.false_eq_true, if_false, hmk]
    obtain ⟨l₁, j, l₂, hdec, hnp, hjp, hres⟩ := markFirstPending_eq_some hmk
    have hfind : s.jobs.find? Job.isPending = some j := by
      rw [hdec]
      exact find?_append_first hnp hjp
    have hjjm : j = jm := by
      have h2 := hfp
      unfold firstPending at h2
      rw [hfind, Option.some_inj] at h2
      exact h2
    have hnoan := no_analyzing_of_idle h hp
    show jobs2.filter Job.isAnalyzing = _
    have hfl₁ : l₁.filter Job.isAnalyzing = [] := by
      rw [List.filter_eq_nil_iff]
      intro k hk hka
      have h3 := hnoan k (hdec ▸ List.mem_append.2 (Or.inl hk))
      rw [h3] at hka
      simp at hka
    have hfl₂ : l₂.filter Job.isAnalyzing = [] := by
      rw [List.filter_eq_nil_iff]
      intro k hk hka
      have h3 := hnoan k (hdec ▸ List.mem_append.2 (Or.inr (List.mem_cons_of_mem j hk)))
      rw [h3] at hka
      simp at hka
    rw [hres, List.filter_append, hfl₁, List.nil_append,
      List.filter_cons_of_pos (show ({ j with status := .analyzing } : Job).isAnalyzing
        from rfl), hfl₂, hjjm]

/-- C9: batches are processed in strict FIFO order: the pending job selected
by the drain step (`find` on "pending") is the one with the smallest id among
pending jobs (ids are assigned in enqueue order), an idle drain invocation
marks exactly that job as the unique `analyzing` one, the pruning step
preserves the relative order of active jobs, and the ghost log of retirement
events is strictly increasing in job id — so of two batches both eventually
retired, the one enqueued first reaches its terminal state first. -/
theorem claim9_fifo_order (s : QState) (h : QReach s) :
    s.retiredLog.Pairwise (· < ·)
    ∧ (∀ jm, firstPending s.jobs = some jm →
        ∀ j ∈ s.jobs, j.isPending = true → jm.id ≤ j.id)
    ∧ (s.processing = false → ∀ jm, firstPending s.jobs = some jm →
        (drainStart s).jobs.filter Job.isAnalyzing = [{ jm with status := .analyzing }])
    ∧ (prune s.jobs).filter Job.isActive = s.jobs.filter Job.isActive := by
  have hinv := qReach_inv h
  exact ⟨hinv.logSorted, firstPending_min hinv.sortedActive,
    fun hp jm hfp => drainStart_marks_firstPending hinv hp hfp,
    prune_filter_isActive s.jobs⟩

/-- Witness for C9: the theorem applied to the reachable one-job queue
obtained by a single enqueue. -/
theorem claim9_witness :
    ((queueGridForAnalysis qInit [5]).2.retiredLog.Pairwise (· < ·))
    ∧ (∀ jm, firstPending (queueGridForAnalysis qInit [5]).2.jobs = some jm →
        ∀ j ∈ (queueGridForAnalysis qInit [5]).2.jobs, j.isPending = true →
          jm.id ≤ j.id)
    ∧ ((queueGridForAnalysis qInit [5]).2.processing = false →
        ∀ jm, firstPending (queueGridForAnalysis qInit [5]).2.jobs = some jm →
          (drainStart (queueGridForAnalysis qInit [5]).2).jobs.filter Job.isAnalyzing =
            [{ jm with status := .analyzing }])
    ∧ (prune (queueGridForAnalysis qInit [5]).2.jobs).filter Job.isActive =
        (queueGridForAnalysis qInit [5]).2.jobs.filter Job.isActive :=
  claim9_fifo_order (queueGridForAnalysis qInit [5]).2
    (QReach.enq qInit [5] QReach.init)

/-! ## The continuous capture session (`runCaptureSession`, part_002) -/

/-- Where the producer (capture loop) currently is: at the top of an inner
iteration, or awaiting the check-image round-trip for a sampled frame. -/
inductive Phase
  | idle
  | checking
deriving DecidableEq

/-- Combined state of the continuous capture session: the shared analysis
queue, the frames collected for the current grid (`collectedFrames`, abstracted
to payload ids), and the producer's phase. -/
structure SState where
  q : QState
  accepted : List ℕ
  phase : Phase
deriving DecidableEq

/-- The 5000 ms sleep of the full-queue branch of the capture loop: when the
pending-or-analyzing count is at capacity and no frame of the current grid has
been accepted yet, the iteration sleeps 5000 ms and re-polls, sampling no
frame; otherwise no such sleep occurs. -/
def fullQueuePollMs (pendingCount acceptedSoFar : ℕ) : Option ℕ :=
  if pendingCount ≥ MAX_PENDING_JOBS ∧ acceptedSoFar = 0 then some 5000 else none

/-- Reachable states of the continuous capture session.  Producer steps mirror
the inner loop of `runCaptureSession`: an iteration may enter the check-image
round-trip only after passing the full-queue guard (`pendingCount <
MAX_PENDING_JOBS` whenever no frame has been accepted yet; once a grid is in
progress the loop body runs unguarded), and the round-trip resolves to an
accepted or a skipped frame.  When exactly `MAX_FRAMES` frames have been
collected the grid is enqueued via `queueGridForAnalysis` and a fresh grid
begins.  A stop request discards a partial grid.  Worker steps (the drain
process) may interleave at any point, since the producer only suspends at
`await`s.  The session is the only caller of `queueGridForAnalysis`. -/
inductive SReach : SState → Prop
  | init : SReach ⟨qInit, [], .idle⟩
  | beginCheck (s : SState) (h : SReach s) (hp : s.phase = .idle)
      (hguard : s.accepted = [] → activeCount s.q < MAX_PENDING_JOBS) :
      SReach { s with phase := .checking }
  | acceptFrame (s : SState) (f : ℕ) (h : SReach s) (hp : s.phase = .checking) :
      SReach { s with phase := .idle, accepted := s.accepted ++ [f] }
  | skipFrame (s : SState) (h : SReach s) (hp : s.phase = .checking) :
      SReach { s with phase := .idle }
  | completeGrid (s : SState) (h : SReach s) (hp : s.phase = .idle)
      (hn : s.accepted.length = MAX_FRAMES) :
      SReach { s with q := (queueGridForAnalysis s.q s.accepted).2, accepted := [] }
  | discardGrid (s : SState) (h : SReach s) (hp : s.phase = .idle) :
      SReach { s with accepted := [] }
  | workerDrain (s : SState) (h : SReach s) : SReach { s with q := drainStart s.q }
  | workerFinOk (s : SState) (h : SReach s) :
      SReach { s with q := drainFinish s.q .complete }
  | workerFinFail (s : SState) (e : String) (h : SReach s) :
      SReach { s with q := drainFinish s.q (.failed e) }

lemma activeCount_drainStart (q : QState) : activeCount (drainStart q) = activeCount q := by
  unfold drainStart
  by_cases hp : q.processing = true
  · rw [hp]
    simp
  · replace hp : q.processing = false := by simpa using hp
    rw [hp]
    cases hmk : markFirstPending q.jobs with
    | none => simp
    | some jobs' =>
      simp only [Bool.false_eq_true, if_false]
      obtain ⟨l₁, j, l₂, hdec, hnp, hjp, hres⟩ := markFirstPending_eq_some hmk
      show (jobs'.filter Job.isActive).length = (q.jobs.filter Job.isActive).length
      rw [hres, hdec, List.filter_append, List.filter_append,
        List.filter_cons_of_pos (Job.active_of_pending hjp),
        List.filter_cons_of_pos (show ({ j with status := .analyzing } : Job).isActive
          from rfl)]
      simp

lemma activeCount_drainFinish (q : QState) (st : JStatus)
    (hst : st.isActiveStatus = false) :
    activeCount (drainFinish q st) ≤ activeCount q := by
  unfold drainFinish
  by_cases hp : q.processing = true
  · rw [hp]
    simp only [if_true]
    cases hfin : finishAnalyzing st q.jobs with
    | none => simp [activeCount]
    | some pr =>
      obtain ⟨i, jobs'⟩ := pr
      show activeCount ⟨prune jobs', false, q.counter, q.retiredLog ++ [i]⟩ ≤ _
      obtain ⟨l₁, j, l₂, hdec, hna, hja, hid, hres⟩ := finishAnalyzing_eq_some hfin
      show ((prune jobs').filter Job.isActive).length ≤ (q.jobs.filter Job.isActive).length
      rw [prune_filter_isActive, hres, hdec, List.filter_append, List.filter_append,
        List.filter_cons_of_pos (Job.active_of_analyzing hja),
        List.filter_cons_of_neg (show ¬({ j with status := st } : Job).isActive = true
          by simp [Job.isActive, hst])]
      simp
  · replace hp : q.processing = false := by simpa using hp
    rw [hp]
    simp

/-- Producer-side invariant: while a grid is in progress (at least one frame
accepted, or a check round-trip in flight), the queue has spare capacity. -/
def SInv (s : SState) : Prop :=
  (s.accepted ≠ [] ∨ s.phase = .checking) → activeCount s.q < MAX_PENDING_JOBS

lemma sReach_inv {s : SState} (h : SReach s) : SInv s := by
  induction h with
  | init =>
    intro _
    show activeCount qInit < MAX_PENDING_JOBS
    simp [qInit, activeCount, MAX_PENDING_JOBS]
  | beginCheck s h hp hguard ih =>
    intro _
    show activeCount s.q < MAX_PENDING_JOBS
    rcases heq : s.accepted with _ | ⟨a, rest⟩
    · exact hguard heq
    · exact ih (Or.inl (by simp [heq]))
  | acceptFrame s f h hp ih =>
    intro _
    show activeCount s.q < MAX_PENDING_JOBS
    exact ih (Or.inr hp)
  | skipFrame s h hp ih =>
    intro hante
    show activeCount s.q < MAX_PENDING_JOBS
    rcases hante with hne | hph
    · exact ih (Or.inl hne)
    · exact absurd hph (by simp)
  | completeGrid s h hp hn ih =>
    intro hante
    rcases hante with hne | hph
    · exact absurd rfl hne
    · exact absurd hph (by simp [hp])
  | discardGrid s h hp ih =>
    intro hante
    rcases hante with hne | hph
    · exact absurd rfl hne
    · exact absurd hph (by simp [hp])
  | workerDrain s h ih =>
    intro hante
    show activeCount (drainStart s.q) < MAX_PENDING_JOBS
    rw [activeCount_drainStart]
    exact ih hante
  | workerFinOk s h ih =>
    intro hante
    show activeCount (drainFinish s.q .complete) < MAX_PENDING_JOBS
    exact Nat.lt_of_le_of_lt (activeCount_drainFinish s.q .complete rfl) (ih hante)
  | workerFinFail s e h ih =>
    intro hante
    show activeCount (drainFinish s.q (.failed e)) < MAX_PENDING_JOBS
    exact Nat.lt_of_le_of_lt (activeCount_drainFinish s.q (.failed e) rfl) (ih hante)

/-- C8: under the continuous capture policy, a full queue pauses sampling
(the loop sleeps a fixed 5000 ms and re-polls instead of sampling a frame),
and every grid that reaches exactly `MAX_FRAMES` accepted frames is enqueued
at that point: `queueGridForAnalysis` accepts it and appends a pending job
holding exactly the collected frames — a completed batch is never lost to a
full queue. -/
theorem claim8_no_batch_lost (s : SState) (h : SReach s)
    (hfull : s.accepted.length = MAX_FRAMES) :
    (queueGridForAnalysis s.q s.accepted).1 = true
    ∧ (queueGridForAnalysis s.q s.accepted).2.jobs =
        s.q.jobs ++ [⟨s.q.counter + 1, s.accepted, .pending⟩]
    ∧ (∀ pc, pc ≥ MAX_PENDING_JOBS → fullQueuePollMs pc 0 = some 5000) := by
  have hne : s.accepted ≠ [] := by
    intro he
    rw [he] at hfull
    simp [MAX_FRAMES] at hfull
  have hlt : activeCount s.q < MAX_PENDING_JOBS := sReach_inv h (Or.inl hne)
  refine ⟨?_, ?_, ?_⟩
  · unfold queueGridForAnalysis
    rw [if_neg (Nat.not_le.2 hlt)]
  · unfold queueGridForAnalysis
    rw [if_neg (Nat.not_le.2 hlt)]
  · intro pc hpc
    unfold fullQueuePollMs
    rw [if_pos ⟨hpc, rfl⟩]

/-- Witness for C8: a concrete reachable session state holding 12 accepted
frames, at which the enqueue succeeds. -/
theorem claim8_witness :
    ∃ s : SState, SReach s ∧ s.accepted.length = MAX_FRAMES ∧
      (queueGridForAnalysis s.q s.accepted).1 = true := by
  have h0 : SReach ⟨qInit, [], .idle⟩ := SReach.init
  have h1 := SReach.acceptFrame _ 1 (SReach.beginCheck _ h0 rfl (fun _ => by decide)) rfl
  have h2 := SReach.acceptFrame _ 2 (SReach.beginCheck _ h1 rfl (fun _ => by decide)) rfl
  have h3 := SReach.acceptFrame _ 3 (SReach.beginCheck _ h2 rfl (fun _ => by decide)) rfl
  have h4 := SReach.acceptFrame _ 4 (SReach.beginCheck _ h3 rfl (fun _ => by decide)) rfl
  have h5 := SReach.acceptFrame _ 5 (SReach.beginCheck _ h4 rfl (fun _ => by decide)) rfl
  have h6 := SReach.acceptFrame _ 6 (SReach.beginCheck _ h5 rfl (fun _ => by decide)) rfl
  have h7 := SReach.acceptFrame _ 7 (SReach.beginCheck _ h6 rfl (fun _ => by decide)) rfl
  have h8 := SReach.acceptFrame _ 8 (SReach.beginCheck _ h7 rfl (fun _ => by decide)) rfl
  have h9 := SReach.acceptFrame _ 9 (SReach.beginCheck _ h8 rfl (fun _ => by decide)) rfl
  have h10 := SReach.acceptFrame _ 10 (SReach.beginCheck _ h9 rfl (fun _ => by decide)) rfl
  have h11 := SReach.acceptFrame _ 11 (SReach.beginCheck _ h10 rfl (fun _ => by decide)) rfl
  have h12 := SReach.acceptFrame _ 12 (SReach.beginCheck _ h11 rfl (fun _ => by decide)) rfl
  exact ⟨_, h12, by decide, (claim8_no_batch_lost _ h12 (by decide)).1⟩

/-! ## The bounded (single-batch) capture session (part_003 `runCaptureSession`) -/

/-- Constant `TIMEOUT_SECONDS` of the bounded capture session. -/
def TIMEOUT_SECONDS : ℚ := 300

/-- Environment of one iteration of the bounded capture loop: the stop flag as
read at the loop top, the elapsed wall-clock seconds, and the sampled frame
(`none` when `captureOneFrame` returns null; otherwise the frame payload id
together with the check-image verdict `shouldProcess`). -/
structure BIter where
  stopRequested : Bool
  elapsed : ℚ
  frame : Option (ℕ × Bool)
deriving DecidableEq

/-- The capture loop of the bounded session: loop while the stop flag is unset
and fewer than `MAX_FRAMES` frames are accepted; break on timeout; skip an
iteration when no frame is available; append the frame exactly when the check
accepts it.  The event list supplies the environment of successive iterations
(an exhausted list ends the run like a stop request). -/
def boundedLoop : List BIter → List ℕ → List ℕ
  | [], acc => acc
  | it :: rest, acc =>
    if it.stopRequested then acc
    else if MAX_FRAMES ≤ acc.length then acc
    else if TIMEOUT_SECONDS ≤ it.elapsed then acc
    else
      match it.frame with
      | none => boundedLoop rest acc
      | some (f, ok) => boundedLoop rest (if ok then acc ++ [f] else acc)

/-- The end of the bounded session (part_003 lines 383–414, and likewise the
auto-analyze effect of `CaptureSession.tsx`): if no frames were collected the
run ends silently; otherwise the collected frames — however many — are
composed into a grid and submitted for analysis (`some` of the submitted
frame list). -/
def boundedSessionSubmits (evs : List BIter) : Option (List ℕ) :=
  let collected := boundedLoop evs []
  if collected.length = 0 then none else some collected

lemma boundedLoop_length_le (evs : List BIter) (acc : List ℕ)
    (h : acc.length ≤ MAX_FRAMES) : (boundedLoop evs acc).length ≤ MAX_FRAMES := by
  induction evs generalizing acc with
  | nil => simpa [boundedLoop] using h
  | cons it rest ih =>
    unfold boundedLoop
    by_cases hstop : it.stopRequested = true
    · simpa [hstop] using h
    · replace hstop : it.stopRequested = false := by simpa using hstop
      rw [hstop]
      simp only [Bool.false_eq_true, if_false]
      by_cases hlen : MAX_FRAMES ≤ acc.length
      · simpa [hlen] using h
      · rw [if_neg hlen]
        by_cases htime : TIMEOUT_SECONDS ≤ it.elapsed
        · simpa [htime] using h
        · rw [if_neg htime]
          cases hf : it.frame with
          | none => exact ih acc h
          | some p =>
            obtain ⟨f, ok⟩ := p
            cases ok
            · simpa using ih acc h
            · refine ih (acc ++ [f]) ?_
              simp only [List.length_append, List.length_singleton]
              omega

/-- C7 counterexample: a run in which one frame is accepted and then the
300 s timeout fires submits its 1-frame partial batch for analysis, although
the claim says only batches of exactly 12 frames are submitted. -/
theorem claim7_counterexample :
    boundedSessionSubmits [⟨false, 0, some (7, true)⟩, ⟨false, 300, none⟩] = some [7]
    ∧ ([7] : List ℕ).length ≠ MAX_FRAMES := by
  constructor
  · decide
  · decide

/-- C7 as amended: when the bounded run ends (by frame count, timeout or
stop), the collected frames are composed and submitted for analysis whenever
at least one frame was collected — only an empty collection is discarded; what
is submitted is exactly the collected frame list (no padding), whose length
never exceeds 12. -/
theorem claim7_nonempty_batches_submitted (evs : List BIter) :
    ((boundedSessionSubmits evs).isSome ↔ boundedLoop evs [] ≠ [])
    ∧ (∀ fs, boundedSessionSubmits evs = some fs →
        fs = boundedLoop evs [] ∧ 1 ≤ fs.length ∧ fs.length ≤ MAX_FRAMES) := by
  unfold boundedSessionSubmits
  constructor
  · by_cases hz : (boundedLoop evs []).length = 0
    · simp [hz, List.length_eq_zero.1 hz]
    · simp only [hz, if_false]
      simp [List.length_eq_zero] at hz
      simp [hz]
  · intro fs hfs
    by_cases hz : (boundedLoop evs []).length = 0
    · simp [hz] at hfs
    · rw [if_neg hz, Option.some_inj] at hfs
      refine ⟨hfs.symm, ?_, ?_⟩
      · rw [← hfs]
        omega
      · rw [← hfs]
        exact boundedLoop_length_le evs [] (by simp [MAX_FRAMES])

/-- Witness for the amended C7: a run that collects one frame and stops
submits exactly that one-frame batch. -/
theorem claim7_witness :
    boundedSessionSubmits [⟨false, 0, some (3, true)⟩] = some [3]
    ∧ ([3] = boundedLoop [⟨false, 0, some (3, true)⟩] []
        ∧ 1 ≤ ([3] : List ℕ).length ∧ ([3] : List ℕ).length ≤ MAX_FRAMES) :=
  ⟨by decide, (claim7_nonempty_batches_submitted [⟨false, 0, some (3, true)⟩]).2 [3]
    (by decide)⟩

/-! ## Claim theorems for the check-image route -/

lemma checkImagePOST_compare (ref hash : List Char) (d : ℕ)
    (hd : hammingDistance ref hash = some d) :
    checkImagePOST (some ref) (some (Except.ok hash)) =
      (PostResult.ok ⟨decide (d ≥ SIMILARITY_THRESHOLD), some d,
          if d ≥ SIMILARITY_THRESHOLD
          then "Accepted (distance: " ++ toString d ++ ")"
          else "Too similar (distance: " ++ toString d ++ ")"⟩,
       if d ≥ SIMILARITY_THRESHOLD then some hash else some ref) := by
  show (match hammingDistance ref hash with
    | none => (PostResult.error 500, some ref)
    | some distance =>
      let shouldProcess : Bool := distance ≥ SIMILARITY_THRESHOLD
      (.ok ⟨shouldProcess, some distance,
          if shouldProcess then "Accepted (distance: " ++ toString distance ++ ")"
          else "Too similar (distance: " ++ toString distance ++ ")"⟩,
       if shouldProcess then some hash else some ref)) = _
  rw [hd]
  by_cases hge : d ≥ SIMILARITY_THRESHOLD
  · simp [hge]
  · simp [hge]

/-- C3: the admission filter.  With no stored reference the frame is
accepted with `distance = null` and its fingerprint becomes the reference;
with a stored reference of equal length the frame is accepted exactly when the
Hamming distance is `≥ SIMILARITY_THRESHOLD` (20), the reference is replaced
exactly on acceptance and kept unchanged on rejection; the boundary is
inclusive: a distance of exactly 20 passes the threshold test and 19 fails it. -/
theorem claim3_admission_filter (hash ref : List Char)
    (hlen : ref.length = hash.length) :
    checkImagePOST none (some (Except.ok hash)) =
      (PostResult.ok ⟨true, none, "First image — accepted"⟩, some hash)
    ∧ (∃ d : ℕ, hammingDistance ref hash = some d
        ∧ checkImagePOST (some ref) (some (Except.ok hash)) =
            (PostResult.ok ⟨decide (d ≥ SIMILARITY_THRESHOLD), some d,
                if d ≥ SIMILARITY_THRESHOLD
                then "Accepted (distance: " ++ toString d ++ ")"
                else "Too similar (distance: " ++ toString d ++ ")"⟩,
             if d ≥ SIMILARITY_THRESHOLD then some hash else some ref))
    ∧ (20 ≥ SIMILARITY_THRESHOLD) = true ∧ (19 ≥ SIMILARITY_THRESHOLD) = false := by
  have hd : hammingDistance ref hash =
      some ((ref.zip hash).countP (fun p => p.1 ≠ p.2)) := by
    unfold hammingDistance
    rw [if_neg (by simp [hlen])]
  exact ⟨rfl, ⟨(ref.zip hash).countP (fun p => p.1 ≠ p.2), hd,
    checkImagePOST_compare ref hash _ hd⟩, by decide, by decide⟩

/-- Witness for C3: the theorem applied to two concrete equal-length hashes. -/
theorem claim3_witness :
    (['0', '1'] : List Char).length = (['0', '0'] : List Char).length
    ∧ (checkImagePOST none (some (Except.ok ['0', '0'])) =
        (PostResult.ok ⟨true, none, "First image — accepted"⟩, some ['0', '0'])
      ∧ (∃ d : ℕ, hammingDistance ['0', '1'] ['0', '0'] = some d
          ∧ checkImagePOST (some ['0', '1']) (some (Except.ok ['0', '0'])) =
              (PostResult.ok ⟨decide (d ≥ SIMILARITY_THRESHOLD), some d,
                  if d ≥ SIMILARITY_THRESHOLD
                  then "Accepted (distance: " ++ toString d ++ ")"
                  else "Too similar (distance: " ++ toString d ++ ")"⟩,
               if d ≥ SIMILARITY_THRESHOLD then some ['0', '0'] else some ['0', '1']))
      ∧ (20 ≥ SIMILARITY_THRESHOLD) = true ∧ (19 ≥ SIMILARITY_THRESHOLD) = false) :=
  ⟨rfl, claim3_admission_filter ['0', '0'] ['0', '1'] rfl⟩

/-- C10: the check-image endpoint is atomic on error: whenever the `POST`
handler produces an error response — no image in the form data (400), the
fingerprint computation throwing (500), or the internal length-mismatch throw
(500) — the stored reference `lastHash` is left exactly as it was. -/
theorem claim10_error_atomicity (lastHash : Option (List Char))
    (file : Option (Except String (List Char)))
    (herr : (checkImagePOST lastHash file).1.isError = true) :
    (checkImagePOST lastHash file).2 = lastHash := by
  match file with
  | none => rfl
  | some (.error e) => rfl
  | some (.ok hash) =>
    match lastHash with
    | none => simp [checkImagePOST, PostResult.isError] at herr
    | some ref =>
      show (match hammingDistance ref hash with
        | none => (PostResult.error 500, some ref)
        | some distance => _).2 = _
      cases hd : hammingDistance ref hash with
      | none => rfl
      | some d =>
        exfalso
        rw [checkImagePOST_compare ref hash d hd] at herr
        simp [PostResult.isError] at herr

/-- Witness for C10: a request with no image file against a nonempty stored
reference returns an error and leaves the reference unchanged. -/
theorem claim10_witness :
    (checkImagePOST (some ['1']) none).1.isError = true
    ∧ (checkImagePOST (some ['1']) none).2 = some ['1'] :=
  ⟨by decide, claim10_error_atomicity (some ['1']) none (by decide)⟩

/-! ## Claim theorems for the score formula and failure handling -/

/-- C5: for every `totalCO2Kg`, both analyzer paths compute `scoreChange`
as `(totalCO2Kg / 12.85) * 100` rounded to two decimal places, and in
particular the grid-image path and the per-frame path agree (JS numbers
modelled as exact rationals). -/
theorem claim5_score_formula (totalCO2Kg : ℚ) :
    scoreChangeGrid totalCO2Kg = scoreChangeSpec totalCO2Kg
    ∧ scoreChangeFrames totalCO2Kg = scoreChangeSpec totalCO2Kg := by
  have harg : totalCO2Kg / referenceDailyAverage * 10000 =
      totalCO2Kg / referenceDailyAverage * 100 * 100 := by ring
  constructor
  · unfold scoreChangeGrid scoreChangeSpec
    rw [harg]
  · unfold scoreChangeFrames scoreChangeSpec
    rfl

/-- The status and stored-log effect of one queued grid's analysis, as wired
through the system: the client worker (`processAnalysisQueue`) calls the
analyze-grid route, which calls `analyzeGrid`; a rejected Gemini call
propagates as a 500 and the client marks the job `failed` with the route's
error message and no log is stored; a 200 marks it `complete` and one log
carrying the computed `scoreChange` was inserted. -/
def processJob (parse : String → Option ParsedResult) (call : AnalyzerCall)
    (logs : List ℚ) : JStatus × List ℚ :=
  match analyzeGridPOST parse call logs with
  | .error e => (.failed e, logs)
  | .ok logs' => (.complete, logs')

/-- C6 counterexample: when the analyzer responds but its response cannot
be parsed (`JSON.parse` throws and `parse` yields `none`), the batch does
*not* transition to `failed`: `analyzeGrid` substitutes a default result with
`totalCO2Kg = 0`, the route stores a log with `scoreChange = 0`, and the batch
completes — contradicting the claim that a parse failure makes the batch
`failed`. -/
theorem claim6_counterexample :
    (processJob (fun _ => none) (AnalyzerCall.respond "not json") []).1 =
      JStatus.complete
    ∧ (processJob (fun _ => none) (AnalyzerCall.respond "not json") []) =
        (JStatus.complete, [0]) := by
  constructor
  · rfl
  · show (JStatus.complete, [scoreChangeGrid 0]) = (JStatus.complete, [0])
    unfold scoreChangeGrid jsRound
    norm_num

/-- C6 as amended: when the analyzer call rejects, the batch transitions to
`failed` with the route's error message attached and the stored logs — hence
the cumulative score — are unchanged.  When the analyzer responds but its
response fails to parse, the batch instead completes with a substituted empty
result: a log with `scoreChange = 0` is appended, leaving the cumulative score
value unchanged. -/
theorem claim6_failure_handling (parse : String → Option ParsedResult)
    (logs : List ℚ) (e text : String) (hparse : parse text = none) :
    processJob parse (AnalyzerCall.reject e) logs =
      (JStatus.failed ("Analysis failed: " ++ e), logs)
    ∧ processJob parse (AnalyzerCall.respond text) logs = (JStatus.complete, logs ++ [0])
    ∧ (logs ++ [0]).sum = logs.sum := by
  refine ⟨rfl, ?_, by simp⟩
  show (JStatus.complete, logs ++ [scoreChangeGrid
    ((parse text).getD ⟨"Parse failed: " ++ (text.take 100), 0⟩).totalCO2Kg]) = _
  rw [hparse]
  show (JStatus.complete, logs ++ [scoreChangeGrid 0]) = _
  have : scoreChangeGrid 0 = 0 := by
    unfold scoreChangeGrid jsRound
    norm_num
  rw [this]

/-- Witness for the amended C6: concrete reject and unparseable-response runs. -/
theorem claim6_witness :
    (fun _ => (none : Option ParsedResult)) "garbage" = none
    ∧ (processJob (fun _ => none) (AnalyzerCall.reject "boom") [1/2] =
        (JStatus.failed ("Analysis failed: " ++ "boom"), [1/2])
      ∧ processJob (fun _ => none) (AnalyzerCall.respond "garbage") [1/2] =
          (JStatus.complete, [1/2] ++ [0])
      ∧ ([1/2] ++ [(0 : ℚ)]).sum = [(1/2 : ℚ)].sum) :=
  ⟨rfl, claim6_failure_handling (fun _ => none) [1/2] "boom" "garbage" rfl⟩

/-! ## Claim theorem for the perceptual hash -/

lemma dctValues_length (c : ℕ → ℚ) (px : ℕ → ℚ) : (dctValues c px).length = 64 := by
  unfold dctValues
  rw [List.length_flatten, List.map_map]
  have : (List.length ∘ fun u => (List.range dctSize).map (fun v => dctCoef c px u v)) =
      fun _ : ℕ => dctSize := by
    funext u
    simp
  rw [this]
  simp [dctSize]

lemma flatten_map_singleton {α β : Type} (l : List α) (f : α → β) :
    (l.map (fun a => [f a])).flatten = l.map f := by
  induction l with
  | nil => rfl
  | cons a rest ih => simp [ih]

lemma foldl_append_data (l : List String) (init : String) :
    (l.foldl (· ++ ·) init).data = init.data ++ (l.map String.data).flatten := by
  induction l generalizing init with
  | nil => simp
  | cons a rest ih =>
    simp only [List.foldl_cons, List.map_cons, List.flatten_cons]
    rw [ih]
    simp [String.data_append]

lemma join_bits_data (l : List ℚ) (m : ℚ) :
    (String.join (l.map (fun v => if v ≥ m then "1" else "0"))).data =
      l.map (fun v => if v ≥ m then '1' else '0') := by
  show ((l.map (fun v => if v ≥ m then "1" else "0")).foldl (· ++ ·) "").data = _
  rw [foldl_append_data, List.map_map]
  have hcomp : (String.data ∘ fun v => if v ≥ m then "1" else "0") =
      fun v : ℚ => [if v ≥ m then '1' else '0'] := by
    funext v
    by_cases hv : v ≥ m
    · simp [hv]
    · simp [hv]
  rw [hcomp, flatten_map_singleton]
  rfl

lemma jsMedian_odd63 (l : List ℚ) (hl : l.length = 63) :
    jsMedian l = (l.insertionSort (· ≤ ·)).getD 31 0 := by
  unfold jsMedian
  simp only [List.length_insertionSort, hl]
  norm_num

/-- C4: the perceptual hash of a 32×32 greyscale image is a 64-character
bit string built from the 64 row-major 8×8 DCT coefficients: there are 64
coefficients; the threshold is the single middle element (index 31 = 63 / 2)
of the ascending sort of the 63 coefficients excluding index 0 (the DC term);
and character `i` of the hash is `'1'` exactly when coefficient `i` (the DC
term included) is `≥` that median, else `'0'`.  Proved for every abstract
cosine table `c` and pixel array `px`. -/
theorem claim4_hash_construction (c : ℕ → ℚ) (px : ℕ → ℚ) :
    (dctValues c px).length = 64
    ∧ ((dctValues c px).drop 1).length = 63
    ∧ (computeHash c px).length = 64
    ∧ (computeHash c px).data = (dctValues c px).map (fun v =>
        if v ≥ (((dctValues c px).drop 1).insertionSort (· ≤ ·)).getD 31 0
        then '1' else '0') := by
  have hlen : (dctValues c px).length = 64 := dctValues_length c px
  have hdrop : ((dctValues c px).drop 1).length = 63 := by
    rw [List.length_drop, hlen]
  have hdata : (computeHash c px).data = (dctValues c px).map (fun v =>
      if v ≥ (((dctValues c px).drop 1).insertionSort (· ≤ ·)).getD 31 0
      then '1' else '0') := by
    unfold computeHash
    rw [join_bits_data, jsMedian_odd63 _ hdrop]
  refine ⟨hlen, hdrop, ?_, hdata⟩
  show (computeHash c px).data.length = 64
  rw [hdata, List.length_map, hlen]
